import Mathlib

/-!
# Verification of the `FormulaEvaluator` spreadsheet expression engine

Shallow embedding of `src/src/Engine/FormulaEvaluator.ts` (the only
algorithmic source file of the repository).  JavaScript numbers are
modelled as extended rationals (`JSVal`): exact rational arithmetic plus
the special values `NaN`, `Infinity` and `-Infinity`.  Floating-point
rounding and the sign of zero are abstracted away; none of the verified
properties depend on them.  Exceptions thrown inside the evaluator are
modelled with `Except String`, the `String` being the value stored into
`_errorMessage` immediately before the corresponding `throw`.
-/

set_option allowUnsafeReducibility true
attribute [semireducible] Rat.mul Rat.add Rat.sub Rat.inv

deriving instance DecidableEq for Except

/-- Model of a JavaScript `number` as used by the evaluator: an exact
rational or one of the IEEE special values.  `undefined` operands
(produced by `Array.pop()` on an empty array) are represented by `nan`,
which is sound for every use in this file: arithmetic on `undefined`
yields `NaN` and `undefined === 0` is `false`, exactly like `NaN`. -/
inductive JSVal where
  | nan : JSVal
  | inf : JSVal
  | neginf : JSVal
  | fin : ℚ → JSVal
deriving DecidableEq

namespace JSVal

/-- JS `isNaN` on an already-converted number. -/
def isNaNv : JSVal → Bool
  | .nan => true
  | _ => false

/-- Whether the value is a finite number (JS `Number.isFinite`). -/
def isFiniteVal : JSVal → Bool
  | .fin _ => true
  | _ => false

/-- JS truthiness of a number: `0`, `-0` and `NaN` are falsy. -/
def truthy : JSVal → Bool
  | .nan => false
  | .fin q => decide (q ≠ 0)
  | _ => true

/-- JS `+` on numbers (exact-rational abstraction of IEEE addition). -/
def jadd : JSVal → JSVal → JSVal
  | .nan, _ => .nan
  | _, .nan => .nan
  | .inf, .neginf => .nan
  | .neginf, .inf => .nan
  | .inf, _ => .inf
  | _, .inf => .inf
  | .neginf, _ => .neginf
  | _, .neginf => .neginf
  | .fin a, .fin b => .fin (a + b)

/-- IEEE negation. -/
def jneg : JSVal → JSVal
  | .nan => .nan
  | .inf => .neginf
  | .neginf => .inf
  | .fin q => .fin (-q)

/-- JS `-` on numbers: subtraction is addition of the negation. -/
def jsub (a b : JSVal) : JSVal := jadd a (jneg b)

/-- JS `*` on numbers (exact-rational abstraction of IEEE multiplication). -/
def jmul : JSVal → JSVal → JSVal
  | .nan, _ => .nan
  | _, .nan => .nan
  | .inf, .inf => .inf
  | .inf, .neginf => .neginf
  | .neginf, .inf => .neginf
  | .neginf, .neginf => .inf
  | .inf, .fin b => if b = 0 then .nan else if 0 < b then .inf else .neginf
  | .fin a, .inf => if a = 0 then .nan else if 0 < a then .inf else .neginf
  | .neginf, .fin b => if b = 0 then .nan else if 0 < b then .neginf else .inf
  | .fin a, .neginf => if a = 0 then .nan else if 0 < a then .neginf else .inf
  | .fin a, .fin b => .fin (a * b)

/-- JS `/` on numbers (exact-rational abstraction of IEEE division; the
sign of zero is abstracted, so a zero divisor behaves like `+0`). -/
def jdiv : JSVal → JSVal → JSVal
  | .nan, _ => .nan
  | _, .nan => .nan
  | .inf, .inf => .nan
  | .inf, .neginf => .nan
  | .neginf, .inf => .nan
  | .neginf, .neginf => .nan
  | .inf, .fin b => if 0 ≤ b then .inf else .neginf
  | .neginf, .fin b => if 0 ≤ b then .neginf else .inf
  | .fin _, .inf => .fin 0
  | .fin _, .neginf => .fin 0
  | .fin a, .fin b =>
    if b = 0 then (if a = 0 then .nan else if 0 < a then .inf else .neginf)
    else .fin (a / b)

end JSVal

/-! ## Model of the ECMAScript `Number(string)` conversion

The evaluator classifies and converts tokens with the JS builtin
`Number` (lines 43 and 112 of `FormulaEvaluator.ts`).  The functions
below model the ECMAScript string-to-number conversion: surrounding
whitespace is ignored, the empty (or all-whitespace) string converts to
`0`, the grammar accepts signed decimal literals with optional fraction
and exponent, signed `Infinity`, and unsigned hex / octal / binary
literals.  A failed conversion (JS result `NaN`) is `none`.  Values are
exact rationals (no rounding to binary64). -/

/-- Whitespace characters stripped by the JS string-to-number conversion
(ASCII subset plus NBSP; other Unicode space code points are not needed
for any token considered here). -/
def isWSChar (c : Char) : Bool :=
  c = ' ' || c = '\t' || c = '\n' || c = '\r' ||
  c = Char.ofNat 11 || c = Char.ofNat 12 || c = Char.ofNat 0xA0

/-- Strip leading and trailing whitespace. -/
def trimWS (cs : List Char) : List Char :=
  ((cs.dropWhile isWSChar).reverse.dropWhile isWSChar).reverse

def isDigitChar (c : Char) : Bool := '0' ≤ c && c ≤ '9'

def isHexDigitChar (c : Char) : Bool :=
  isDigitChar c || ('a' ≤ c && c ≤ 'f') || ('A' ≤ c && c ≤ 'F')

def isOctDigitChar (c : Char) : Bool := '0' ≤ c && c ≤ '7'

def isBinDigitChar (c : Char) : Bool := c = '0' || c = '1'

def digitVal (c : Char) : ℕ :=
  if isDigitChar c then c.toNat - '0'.toNat
  else if 'a' ≤ c && c ≤ 'f' then c.toNat - 'a'.toNat + 10
  else if 'A' ≤ c && c ≤ 'F' then c.toNat - 'A'.toNat + 10
  else 0

/-- Value of a digit string in the given base. -/
def natOfDigits (base : ℕ) (cs : List Char) : ℕ :=
  cs.foldl (fun acc c => acc * base + digitVal c) 0

/-- Parse the mantissa part `digits [. digits]` of a decimal literal,
returning its exact value and the unconsumed remainder.  At least one
digit must be present overall. -/
def parseDecMantissa (cs : List Char) : Option (ℚ × List Char) :=
  let ip := cs.takeWhile isDigitChar
  let r1 := cs.dropWhile isDigitChar
  match r1 with
  | '.' :: r2 =>
    let fp := r2.takeWhile isDigitChar
    let r3 := r2.dropWhile isDigitChar
    if ip.isEmpty && fp.isEmpty then none
    else some ((natOfDigits 10 ip : ℚ) + (natOfDigits 10 fp : ℚ) / (10 ^ fp.length : ℚ), r3)
  | _ => if ip.isEmpty then none else some ((natOfDigits 10 ip : ℚ), r1)

/-- Parse an optional exponent part `[(e|E) [+|-] digits]`, which must
consume the whole remainder. -/
def parseExpPart (cs : List Char) : Option ℤ :=
  match cs with
  | [] => some 0
  | 'e' :: r => parseSignedDigits r
  | 'E' :: r => parseSignedDigits r
  | _ => none
where
  parseSignedDigits (r : List Char) : Option ℤ :=
    let sd : ℤ × List Char :=
      match r with
      | '+' :: t => (1, t)
      | '-' :: t => (-1, t)
      | t => (1, t)
    if !sd.2.isEmpty && sd.2.all isDigitChar
    then some (sd.1 * (natOfDigits 10 sd.2 : ℤ)) else none

/-- Scale a rational by a (possibly negative) power of ten. -/
def scalePow10 (m : ℚ) (e : ℤ) : ℚ :=
  if 0 ≤ e then m * (10 : ℚ) ^ e.toNat else m / (10 : ℚ) ^ (-e).toNat

/-- Parse an unsigned decimal literal with optional exponent. -/
def parseDecimal (cs : List Char) : Option ℚ := do
  let mr ← parseDecMantissa cs
  let e ← parseExpPart mr.2
  some (scalePow10 mr.1 e)

/-- Unsigned part of the conversion: `Infinity` or a decimal literal,
negated when the consumed sign was `-`. -/
def jsUnsigned (cs : List Char) (neg : Bool) : Option JSVal :=
  if cs = "Infinity".data then some (if neg then .neginf else .inf)
  else
    match parseDecimal cs with
    | some q => some (.fin (if neg then -q else q))
    | none => none

/-- Signed decimal / Infinity branch of the conversion. -/
def jsSigned (cs : List Char) : Option JSVal :=
  match cs with
  | '+' :: r => jsUnsigned r false
  | '-' :: r => jsUnsigned r true
  | r => jsUnsigned r false

/-- Model of the ECMAScript `Number(string)` conversion; `none` is `NaN`. -/
def jsStrToNumber (s : String) : Option JSVal :=
  match trimWS s.data with
  | [] => some (.fin 0)
  | '0' :: 'x' :: rest =>
    if !rest.isEmpty && rest.all isHexDigitChar then some (.fin (natOfDigits 16 rest : ℚ)) else none
  | '0' :: 'X' :: rest =>
    if !rest.isEmpty && rest.all isHexDigitChar then some (.fin (natOfDigits 16 rest : ℚ)) else none
  | '0' :: 'o' :: rest =>
    if !rest.isEmpty && rest.all isOctDigitChar then some (.fin (natOfDigits 8 rest : ℚ)) else none
  | '0' :: 'O' :: rest =>
    if !rest.isEmpty && rest.all isOctDigitChar then some (.fin (natOfDigits 8 rest : ℚ)) else none
  | '0' :: 'b' :: rest =>
    if !rest.isEmpty && rest.all isBinDigitChar then some (.fin (natOfDigits 2 rest : ℚ)) else none
  | '0' :: 'B' :: rest =>
    if !rest.isEmpty && rest.all isBinDigitChar then some (.fin (natOfDigits 2 rest : ℚ)) else none
  | cs => jsSigned cs

/-- JS `Number(token)`: the converted value, `nan` when conversion fails. -/
def jsNumberValue (t : String) : JSVal :=
  (jsStrToNumber t).getD .nan

/-! ## Error messages

Modelled from the spec: `GlobalDefinitions.ts` is not part of the
sources provided, so the error constants are modelled from the spec's
error taxonomy (§7), which names five distinct error kinds.  Only their
distinctness and identity matter to the evaluator. -/

namespace ErrorMessages

def emptyFormula : String := "EmptyFormula"

def invalidFormula : String := "InvalidFormula"

def invalidOperator : String := "InvalidOperator"

def divideByZero : String := "DivideByZero"

def invalidCell : String := "InvalidCell"

end ErrorMessages

/-- Modelled from the spec: `Cell.isValidCellLabel` lives in `Cell.ts`,
which is not part of the sources provided.  The spec (§2, §6) describes
it as the syntactic test matching a column-letter + row-number pattern:
one or more column letters followed by one or more row digits. -/
def isValidCellLabel (s : String) : Bool :=
  let letters := s.data.takeWhile (fun c => 'A' ≤ c && c ≤ 'Z')
  let rest := s.data.dropWhile (fun c => 'A' ≤ c && c ≤ 'Z')
  !letters.isEmpty && !rest.isEmpty && rest.all isDigitChar

/-- Modelled from the spec: the slice of a stored cell that the
evaluator reads through `SheetMemory` (§6): the cell's own formula
(only its length is consumed), its cached numeric value and its cached
error string. -/
structure CellData where
  formula : List String
  value : JSVal
  error : String

instance : Inhabited CellData := ⟨⟨[], .fin 0, ""⟩⟩

/-- Modelled from the spec: `SheetMemory.getCellByLabel` is a pure
in-memory lookup from labels to cells (§5, §6). -/
def SheetMemory := String → CellData

/-! ## The `FormulaEvaluator` itself (from `src/src/Engine/FormulaEvaluator.ts`) -/

/-- The evaluator's two mutable fields `_errorMessage` and `_result`. -/
structure EvalState where
  errorMessage : String
  result : JSVal
deriving DecidableEq

namespace FormulaEvaluator

/-- `isNumber` (line 111): `!isNaN(Number(token))`. -/
def isNumber (token : String) : Bool :=
  !(jsNumberValue token).isNaNv

/-- `isCellReference` (line 115): `Cell.isValidCellLabel(token)`. -/
def isCellReference (token : String) : Bool :=
  isValidCellLabel token

/-- `isOperator` (line 136). -/
def isOperator (token : String) : Bool :=
  token ∈ ["+", "-", "*", "/"]

/-- `getOperatorPrecedence` (line 140). -/
def getOperatorPrecedence (operator : String) : ℕ :=
  if operator = "+" then 1
  else if operator = "-" then 1
  else if operator = "*" then 2
  else if operator = "/" then 2
  else 0

/-- `getCellValue` (line 119): returns the pair `[value, error]`. -/
def getCellValue (mem : SheetMemory) (token : String) : JSVal × String :=
  let cell := mem token
  if cell.error ≠ "" ∧ cell.error ≠ ErrorMessages.emptyFormula then
    (.fin 0, cell.error)
  else if cell.formula.length = 0 then
    (.fin 0, ErrorMessages.invalidCell)
  else
    (cell.value, "")

/-- `values.pop()!` (lines 82-83): JS `pop` on an empty array yields
`undefined`, represented by `nan` (see `JSVal`). -/
def popOperand : List JSVal → JSVal × List JSVal
  | [] => (.nan, [])
  | v :: rest => (v, rest)

/-- `applyOperator` (lines 81-109).  The values stack has its top at the
list head.  An `Except.error msg` models `this._errorMessage = msg`
immediately followed by a `throw`. -/
def applyOperator (op : String) (values : List JSVal) : Except String (List JSVal) :=
  let p2 := popOperand values
  let p1 := popOperand p2.2
  let operand2 := p2.1
  let operand1 := p1.1
  if op = "+" then .ok (JSVal.jadd operand1 operand2 :: p1.2)
  else if op = "-" then .ok (JSVal.jsub operand1 operand2 :: p1.2)
  else if op = "*" then .ok (JSVal.jmul operand1 operand2 :: p1.2)
  else if op = "/" then
    if operand2 = JSVal.fin 0 then .error ErrorMessages.divideByZero
    else .ok (JSVal.jdiv operand1 operand2 :: p1.2)
  else .error ErrorMessages.invalidOperator

/-- The close-paren reduction (lines 54-57): pop and apply operators
until an open paren or stack exhaustion, then `operators.pop()` (which
drops the `"("` if present and is a no-op on an empty stack). -/
def reduceParen : List String → List JSVal → Except String (List JSVal × List String)
  | [], values => .ok (values, [])
  | op :: rest, values =>
    if op = "(" then .ok (values, rest)
    else
      match applyOperator op values with
      | .error e => .error e
      | .ok v => reduceParen rest v

/-- The operator-token reduction (lines 59-64): pop and apply while the
stack top has precedence at least that of the incoming token. -/
def reduceBefore (token : String) : List String → List JSVal → Except String (List JSVal × List String)
  | [], values => .ok (values, [])
  | op :: rest, values =>
    if getOperatorPrecedence token ≤ getOperatorPrecedence op then
      match applyOperator op values with
      | .error e => .error e
      | .ok v => reduceBefore token rest v
    else .ok (values, op :: rest)

/-- The final reduction (lines 69-71): apply every remaining operator. -/
def reduceAllOps : List String → List JSVal → Except String (List JSVal)
  | [], values => .ok values
  | op :: rest, values =>
    match applyOperator op values with
    | .error e => .error e
    | .ok v => reduceAllOps rest v

/-- The token scan of `evaluateExpression` (lines 39-67), with the two
stacks passed explicitly (top at the head). -/
def scan (mem : SheetMemory) : List String → List JSVal → List String → Except String (List JSVal × List String)
  | [], values, operators => .ok (values, operators)
  | token :: rest, values, operators =>
    if isNumber token then
      scan mem rest (jsNumberValue token :: values) operators
    else if isCellReference token then
      let ve := getCellValue mem token
      if ve.2 ≠ "" then .error ve.2
      else scan mem rest (ve.1 :: values) operators
    else if token = "(" then
      scan mem rest values (token :: operators)
    else if token = ")" then
      match reduceParen operators values with
      | .error e => .error e
      | .ok vo => scan mem rest vo.1 vo.2
    else if isOperator token then
      match reduceBefore token operators values with
      | .error e => .error e
      | .ok vo => scan mem rest vo.1 (token :: vo.2)
    else
      scan mem rest values operators

/-- JS `v || 0` (line 78): `v` when truthy, else `0`. -/
def orZero (v : JSVal) : JSVal :=
  if v.truthy then v else .fin 0

/-- `evaluateExpression` (lines 35-79). -/
def evaluateExpression (mem : SheetMemory) (tokens : List String) : Except String JSVal :=
  match scan mem tokens [] [] with
  | .error e => .error e
  | .ok vo =>
    match reduceAllOps vo.2 vo.1 with
    | .error e => .error e
    | .ok values =>
      if values.length ≠ 1 then .error ErrorMessages.invalidFormula
      else .ok (orZero (popOperand values).1)

/-- `evaluate` (lines 17-33): resets both fields, handles the empty
formula, and catches every exception of the reduction, overwriting
`_errorMessage` with `invalidFormula` (line 31) regardless of the
message stored when the exception was thrown. -/
def evaluate (_s : EvalState) (mem : SheetMemory) (formula : List String) : EvalState :=
  if formula.length = 0 then ⟨ErrorMessages.emptyFormula, .fin 0⟩
  else
    match evaluateExpression mem formula with
    | .ok result => ⟨"", result⟩
    | .error _ => ⟨ErrorMessages.invalidFormula, .fin 0⟩

end FormulaEvaluator

/-! ## Standard infix evaluation (specification side)

The spec's notion of a well-formed arithmetic-only formula and its
standard infix value (`*`/`/` tighter than `+`/`-`, equal precedence
left-associative, parentheses overriding) is captured by the canonical
stratified expression grammar

  E -> E + T | E - T | T      T -> T * F | T / F | F      F -> num | ( E )

over a single tree type `AExp`: `isExprA`, `isTerm` and `isFactor`
select the trees of each stratum, `tokensOf` flattens a tree to the
token sequence it stands for, and `denote` is its standard value.
`denote` is partial: a division whose right operand evaluates to zero
has no standard infix value. -/

inductive AExp where
  | num : String → ℚ → AExp
  | add : AExp → AExp → AExp
  | sub : AExp → AExp → AExp
  | mul : AExp → AExp → AExp
  | div : AExp → AExp → AExp
  | paren : AExp → AExp

namespace AExp

/-- The token sequence a tree stands for (no parentheses are inserted
other than the explicit `paren` nodes). -/
def tokensOf : AExp → List String
  | .num s _ => [s]
  | .add a b => tokensOf a ++ "+" :: tokensOf b
  | .sub a b => tokensOf a ++ "-" :: tokensOf b
  | .mul a b => tokensOf a ++ "*" :: tokensOf b
  | .div a b => tokensOf a ++ "/" :: tokensOf b
  | .paren a => "(" :: (tokensOf a ++ [")"])

/-- Standard infix value; `none` when a division by zero occurs. -/
def denote : AExp → Option ℚ
  | .num _ q => some q
  | .add a b =>
    match denote a, denote b with
    | some x, some y => some (x + y)
    | _, _ => none
  | .sub a b =>
    match denote a, denote b with
    | some x, some y => some (x - y)
    | _, _ => none
  | .mul a b =>
    match denote a, denote b with
    | some x, some y => some (x * y)
    | _, _ => none
  | .div a b =>
    match denote a, denote b with
    | some x, some y => if y = 0 then none else some (x / y)
    | _, _ => none
  | .paren a => denote a

/-- A leaf is valid when its token converts (via the JS `Number`
conversion the code uses) to exactly the finite value it carries. -/
def numOK (s : String) (q : ℚ) : Bool :=
  decide (jsStrToNumber s = some (JSVal.fin q))

mutual

/-- Trees of the `F` stratum: number leaves and parenthesized `E`. -/
def isFactor : AExp → Bool
  | .num s q => numOK s q
  | .paren a => isExprA a
  | _ => false

/-- Trees of the `T` stratum: left-nested `*`/`/` over factors. -/
def isTerm : AExp → Bool
  | .num s q => numOK s q
  | .paren a => isExprA a
  | .mul a b => isTerm a && isFactor b
  | .div a b => isTerm a && isFactor b
  | _ => false

/-- Trees of the `E` stratum: left-nested `+`/`-` over terms. -/
def isExprA : AExp → Bool
  | .num s q => numOK s q
  | .paren a => isExprA a
  | .mul a b => isTerm a && isFactor b
  | .div a b => isTerm a && isFactor b
  | .add a b => isExprA a && isTerm b
  | .sub a b => isExprA a && isTerm b

end

end AExp

/-! ## Fixtures for concrete evaluations -/

/-- A sheet whose cells are all empty (fresh sheet). -/
def memEmpty : SheetMemory := fun _ => default

/-- The evaluator's fields as initialized by the constructor. -/
def initState : EvalState := ⟨"", .fin 0⟩

/-- A sheet for the referenced-cell error cases: `A1` holds a stored
`divideByZero` error, `B1` an empty formula, `C1` a healthy value 9. -/
def memRef : SheetMemory := fun label =>
  if label = "A1" then ⟨["1"], .fin 7, ErrorMessages.divideByZero⟩
  else if label = "B1" then ⟨[], .fin 0, ""⟩
  else if label = "C1" then ⟨["9"], .fin 9, ""⟩
  else default

/-! ## Invariants used in the refinement proof -/

namespace FormulaEvaluator

/-- Every pending operator the scan may push: an open paren or one of
the four arithmetic operators. -/
def OpsOK (ops : List String) : Prop :=
  ∀ o ∈ ops, o = "(" ∨ isOperator o = true

/-- Precedence of the operator stack's top (0 when empty). -/
def precTop (ops : List String) : ℕ :=
  match ops with
  | [] => 0
  | o :: _ => getOperatorPrecedence o

end FormulaEvaluator

/-! ## Basic lemmas about the `Number` conversion -/

theorem jsUnsigned_ne_nan (cs : List Char) (neg : Bool) :
    jsUnsigned cs neg ≠ some JSVal.nan := by
  unfold jsUnsigned
  split
  · split <;> simp
  · split <;> simp

theorem jsSigned_ne_nan (cs : List Char) : jsSigned cs ≠ some JSVal.nan := by
  unfold jsSigned
  split <;> exact jsUnsigned_ne_nan _ _

theorem jsStrToNumber_ne_nan (s : String) : jsStrToNumber s ≠ some JSVal.nan := by
  unfold jsStrToNumber
  split
  · simp
  · split <;> simp
  · split <;> simp
  · split <;> simp
  · split <;> simp
  · split <;> simp
  · split <;> simp
  · exact jsSigned_ne_nan _

namespace FormulaEvaluator

theorem isNumber_eq_isSome (t : String) : isNumber t = (jsStrToNumber t).isSome := by
  unfold isNumber jsNumberValue
  cases h : jsStrToNumber t with
  | none => rfl
  | some v =>
    have hv : v ≠ JSVal.nan := fun hv => jsStrToNumber_ne_nan t (hv ▸ h)
    cases v <;> simp [JSVal.isNaNv] at hv ⊢

/-! ## Claim theorems (C2 -- C10) -/

/-- C6: evaluating the empty token sequence yields the `EmptyFormula`
error and the sentinel numeric result 0. -/
theorem claim_C6_empty_formula (s : EvalState) (mem : SheetMemory) :
    evaluate s mem [] = ⟨ErrorMessages.emptyFormula, .fin 0⟩ := rfl

/-- C8: `evaluate` fully resets its two fields at the start of every
call, so its outcome does not depend on the evaluator's prior state; in
particular two consecutive calls with the same token sequence and the
same unchanged sheet produce identical result/error fields. -/
theorem claim_C8_idempotent (s1 s2 : EvalState) (mem : SheetMemory) (f : List String) :
    evaluate s1 mem f = evaluate s2 mem f ∧
    evaluate (evaluate s1 mem f) mem f = evaluate s1 mem f :=
  ⟨rfl, rfl⟩

/-- C2 (observed code behavior): on `["5","/","0"]` the `/` apply step
does store the `divideByZero` message and throws, but the `catch` in
`evaluate` overwrites the message, so the surfaced error is
`invalidFormula`, not `divideByZero`; the result is the sentinel 0. -/
theorem claim_C2_divzero_clobbered :
    applyOperator "/" [.fin 0, .fin 5] = .error ErrorMessages.divideByZero ∧
    evaluate initState memEmpty ["5", "/", "0"] = ⟨ErrorMessages.invalidFormula, .fin 0⟩ ∧
    ErrorMessages.invalidFormula ≠ ErrorMessages.divideByZero := by
  refine ⟨by decide, by decide, by decide⟩

/-- C3 (observed code behavior): a reference to a cell with a non-empty
stored error (`A1`, stored error `divideByZero`) aborts with that error
thrown, but the `catch` in `evaluate` overwrites it with
`invalidFormula`; likewise a reference to a cell with an empty formula
(`B1`) throws `invalidCell` but surfaces `invalidFormula`. -/
theorem claim_C3_referenced_error_clobbered :
    ((memRef "A1").error = ErrorMessages.divideByZero ∧
      evaluateExpression memRef ["A1"] = .error ErrorMessages.divideByZero ∧
      evaluate initState memRef ["A1"] = ⟨ErrorMessages.invalidFormula, .fin 0⟩ ∧
      ErrorMessages.invalidFormula ≠ ErrorMessages.divideByZero) ∧
    ((memRef "B1").formula.length = 0 ∧
      evaluateExpression memRef ["B1"] = .error ErrorMessages.invalidCell ∧
      evaluate initState memRef ["B1"] = ⟨ErrorMessages.invalidFormula, .fin 0⟩ ∧
      ErrorMessages.invalidFormula ≠ ErrorMessages.invalidCell) := by
  refine ⟨⟨by decide, by decide, by decide, by decide⟩,
    ⟨by decide, by decide, by decide, by decide⟩⟩

/-- C4: every call to `evaluate` returns normally (the function is
total) and every internal failure has been converted into the error
field, which afterwards always holds one of the fixed error strings the
outer boundary can produce. -/
theorem claim_C4_total_no_escape (s : EvalState) (mem : SheetMemory) (formula : List String) :
    (evaluate s mem formula).errorMessage = "" ∨
    (evaluate s mem formula).errorMessage = ErrorMessages.emptyFormula ∨
    (evaluate s mem formula).errorMessage = ErrorMessages.invalidFormula := by
  by_cases h0 : formula.length = 0
  · simp [evaluate, h0]
  · cases hx : evaluateExpression mem formula with
    | ok v => simp [evaluate, h0, hx]
    | error e => simp [evaluate, h0, hx]

/-- C7: after any call to `evaluate`, a non-empty error field forces the
numeric result to be the sentinel 0. -/
theorem claim_C7_error_forces_sentinel (s : EvalState) (mem : SheetMemory) (f : List String)
    (h : (evaluate s mem f).errorMessage ≠ "") :
    (evaluate s mem f).result = .fin 0 := by
  by_cases h0 : f.length = 0
  · simp [evaluate, h0]
  · cases hx : evaluateExpression mem f with
    | ok v => exact absurd (by simp [evaluate, h0, hx]) h
    | error e => simp [evaluate, h0, hx]

theorem claim_C7_witness :
    (evaluate initState memEmpty ["2", "3"]).errorMessage ≠ "" ∧
    (evaluate initState memEmpty ["2", "3"]).result = .fin 0 :=
  ⟨by decide, claim_C7_error_forces_sentinel initState memEmpty ["2", "3"] (by decide)⟩

/-- C5: when the scan completes and, after the remaining operators are
applied, the values stack does not hold exactly one value, `evaluate`
reports the `invalidFormula` error. -/
theorem claim_C5_leftover_values (mem : SheetMemory) (s : EvalState) (f : List String)
    (vals finalVals : List JSVal) (ops : List String)
    (hne : f ≠ [])
    (hscan : scan mem f [] [] = .ok (vals, ops))
    (hred : reduceAllOps ops vals = .ok finalVals)
    (hlen : finalVals.length ≠ 1) :
    (evaluate s mem f).errorMessage = ErrorMessages.invalidFormula := by
  have h0 : f.length ≠ 0 := by simpa [List.length_eq_zero] using hne
  simp [evaluate, h0, evaluateExpression, hscan, hred, hlen]

theorem claim_C5_witness :
    (evaluate initState memEmpty ["2", "3"]).errorMessage = ErrorMessages.invalidFormula :=
  claim_C5_leftover_values memEmpty initState ["2", "3"]
    [.fin 3, .fin 2] [.fin 3, .fin 2] [] (by decide) (by decide) (by decide) (by decide)

/-- C10: a token recognized as none of number, cell reference,
parenthesis or operator is silently skipped by the scan, and e.g.
`["2","$"]` evaluates without error to 2, computed from the remaining
tokens alone. -/
theorem claim_C10_unknown_token_skipped :
    (∀ (mem : SheetMemory) (t : String) (rest : List String) (vals : List JSVal) (ops : List String),
      isNumber t = false → isCellReference t = false → t ≠ "(" → t ≠ ")" → isOperator t = false →
      scan mem (t :: rest) vals ops = scan mem rest vals ops) ∧
    (∀ (s : EvalState) (mem : SheetMemory), evaluate s mem ["2", "$"] = ⟨"", .fin 2⟩) := by
  constructor
  · intro mem t rest vals ops h1 h2 h3 h4 h5
    simp [scan, h1, h2, h3, h4, h5]
  · intro s mem
    rfl

theorem claim_C10_witness :
    scan memEmpty ["$"] [] [] = scan memEmpty [] [] [] :=
  claim_C10_unknown_token_skipped.1 memEmpty "$" [] [] []
    (by decide) (by decide) (by decide) (by decide) (by decide)

/-- C9 fails as stated: the number classifier accepts `"Infinity"`, yet
the value it converts to (and which the scan would push) is not finite. -/
theorem claim_C9_counterexample :
    isNumber "Infinity" = true ∧
    jsNumberValue "Infinity" = JSVal.inf ∧
    JSVal.isFiniteVal (jsNumberValue "Infinity") = false ∧
    evaluate initState memEmpty ["Infinity"] = ⟨"", JSVal.inf⟩ := by
  refine ⟨by decide, by decide, by decide, by decide⟩

/-- C9 amended: the classifier accepts a token iff the token converts
to some numeric value under the JS `Number` conversion — a set that
includes the non-finite `Infinity` values and the empty (or whitespace)
string, which converts to 0; an accepted token's value need not be
finite. -/
theorem claim_C9_accepts_iff_converts :
    (∀ t : String, isNumber t = true ↔ (jsStrToNumber t).isSome = true) ∧
    isNumber "Infinity" = true ∧ isNumber "" = true ∧
    isNumber "12.5" = true ∧ isNumber "abc" = false := by
  refine ⟨fun t => by rw [isNumber_eq_isSome], by decide, by decide, by decide, by decide⟩

theorem claim_C9_witness :
    isNumber "3.5" = true ↔ (jsStrToNumber "3.5").isSome = true :=
  claim_C9_accepts_iff_converts.1 "3.5"

end FormulaEvaluator

/-! ## Lemmas for the refinement proof of standard infix evaluation (C1) -/

namespace FormulaEvaluator

theorem OpsOK_nil : OpsOK [] := by
  intro o h
  cases h

theorem OpsOK_cons {o : String} {ops : List String}
    (h : o = "(" ∨ isOperator o = true) (hs : OpsOK ops) : OpsOK (o :: ops) := by
  intro x hx
  simp only [List.mem_cons] at hx
  rcases hx with rfl | hx
  · exact h
  · exact hs x hx

theorem OpsOK_tail {o : String} {ops : List String} (h : OpsOK (o :: ops)) : OpsOK ops :=
  fun x hx => h x (List.mem_cons_of_mem o hx)

theorem isOperator_prec {o : String} (h : isOperator o = true) :
    1 ≤ getOperatorPrecedence o := by
  simp only [isOperator, List.mem_cons, List.mem_singleton, decide_eq_true_eq] at h
  rcases h with rfl | rfl | rfl | rfl | h
  · decide
  · decide
  · decide
  · decide
  · cases h

theorem isOperator_ne_open {o : String} (h : isOperator o = true) : o ≠ "(" := by
  intro h0
  subst h0
  simp [isOperator] at h

/-- A reduction loop stops immediately when the stack top binds strictly
less tightly than the incoming token. -/
theorem reduceBefore_stop (t : String) (ops : List String) (vals : List JSVal)
    (h : precTop ops < getOperatorPrecedence t) :
    reduceBefore t ops vals = .ok (vals, ops) := by
  cases ops with
  | nil => rfl
  | cons o rest =>
    have : ¬ getOperatorPrecedence t ≤ getOperatorPrecedence o := by
      simp only [precTop] at h
      omega
    simp [reduceBefore, this]

/-- `reduceBefore` depends on the incoming token only through its
precedence. -/
theorem reduceBefore_congr (t1 t2 : String)
    (h : getOperatorPrecedence t1 = getOperatorPrecedence t2) :
    ∀ (ops : List String) (vals : List JSVal),
      reduceBefore t1 ops vals = reduceBefore t2 ops vals := by
  intro ops
  induction ops with
  | nil => intro vals; rfl
  | cons o rest ih =>
    intro vals
    simp only [reduceBefore, h]
    split
    · cases applyOperator o vals with
      | error e => rfl
      | ok v => exact ih v
    · rfl

/-- The prec-1 loop factors through the prec-2 loop. -/
theorem reduceBefore_factor (ops : List String) (vals : List JSVal) :
    reduceBefore "+" ops vals =
      match reduceBefore "*" ops vals with
      | .error e => .error e
      | .ok vo => reduceBefore "+" vo.2 vo.1 := by
  induction ops generalizing vals with
  | nil => rfl
  | cons o rest ih =>
    by_cases h2 : getOperatorPrecedence "*" ≤ getOperatorPrecedence o
    · have h1 : getOperatorPrecedence "+" ≤ getOperatorPrecedence o :=
        le_trans (by decide) h2
      simp only [reduceBefore, if_pos h1, if_pos h2]
      cases hr : applyOperator o vals with
      | error e => rfl
      | ok v => exact ih v
    · simp only [reduceBefore, if_neg h2]

/-- On a well-formed operator stack, the close-paren loop computes what
the prec-1 loop computes and then drops the stopping open paren. -/
theorem reduceParen_of_reduceBefore (ops : List String) (vals v : List JSVal) (o : List String)
    (hOK : OpsOK ops) (h : reduceBefore "+" ops vals = .ok (v, o)) :
    reduceParen ops vals = .ok (v, o.tail) := by
  induction ops generalizing vals with
  | nil =>
    simp only [reduceBefore] at h
    cases h
    rfl
  | cons op rest ih =>
    rcases hOK op (List.mem_cons_self op rest) with hop | hop
    · subst hop
      have hnp : ¬ getOperatorPrecedence "+" ≤ getOperatorPrecedence "(" := by decide
      simp only [reduceBefore, if_neg hnp] at h
      cases h
      rfl
    · have hp : getOperatorPrecedence "+" ≤ getOperatorPrecedence op := isOperator_prec hop
      have hne : op ≠ "(" := isOperator_ne_open hop
      simp only [reduceBefore, if_pos hp] at h
      simp only [reduceParen, if_neg hne]
      cases hr : applyOperator op vals with
      | error e => rw [hr] at h; cases h
      | ok w =>
        rw [hr] at h
        exact ih w (OpsOK_tail hOK) h

/-- When the prec-1 loop consumes the whole operator stack, it computes
exactly the final reduction. -/
theorem reduceAllOps_of_reduceBefore (ops : List String) (vals v : List JSVal)
    (h : reduceBefore "+" ops vals = .ok (v, [])) :
    reduceAllOps ops vals = .ok v := by
  induction ops generalizing vals with
  | nil =>
    simp only [reduceBefore] at h
    cases h
    rfl
  | cons op rest ih =>
    by_cases hp : getOperatorPrecedence "+" ≤ getOperatorPrecedence op
    · simp only [reduceBefore, if_pos hp] at h
      simp only [reduceAllOps]
      cases hr : applyOperator op vals with
      | error e => rw [hr] at h; cases h
      | ok w => rw [hr] at h; exact ih w h
    · simp only [reduceBefore, if_neg hp] at h
      cases h

end FormulaEvaluator

namespace FormulaEvaluator

/-! ### Single-token scan steps -/

theorem scan_numtok {s : String} {v : JSVal} (mem : SheetMemory)
    (rest : List String) (vals : List JSVal) (ops : List String)
    (h : jsStrToNumber s = some v) :
    scan mem (s :: rest) vals ops = scan mem rest (v :: vals) ops := by
  have h1 : isNumber s = true := by
    rw [isNumber_eq_isSome, h]
    rfl
  have h2 : jsNumberValue s = v := by
    simp [jsNumberValue, h]
  simp [scan, h1, h2]

theorem scan_open (mem : SheetMemory) (rest : List String) (vals : List JSVal)
    (ops : List String) :
    scan mem ("(" :: rest) vals ops = scan mem rest vals ("(" :: ops) := rfl

theorem scan_close (mem : SheetMemory) (rest : List String) (vals : List JSVal)
    (ops : List String) :
    scan mem (")" :: rest) vals ops =
      match reduceParen ops vals with
      | .error e => .error e
      | .ok vo => scan mem rest vo.1 vo.2 := rfl

theorem scan_plus (mem : SheetMemory) (rest : List String) (vals : List JSVal)
    (ops : List String) :
    scan mem ("+" :: rest) vals ops =
      match reduceBefore "+" ops vals with
      | .error e => .error e
      | .ok vo => scan mem rest vo.1 ("+" :: vo.2) := rfl

theorem scan_minus (mem : SheetMemory) (rest : List String) (vals : List JSVal)
    (ops : List String) :
    scan mem ("-" :: rest) vals ops =
      match reduceBefore "-" ops vals with
      | .error e => .error e
      | .ok vo => scan mem rest vo.1 ("-" :: vo.2) := rfl

theorem scan_star (mem : SheetMemory) (rest : List String) (vals : List JSVal)
    (ops : List String) :
    scan mem ("*" :: rest) vals ops =
      match reduceBefore "*" ops vals with
      | .error e => .error e
      | .ok vo => scan mem rest vo.1 ("*" :: vo.2) := rfl

theorem scan_slash (mem : SheetMemory) (rest : List String) (vals : List JSVal)
    (ops : List String) :
    scan mem ("/" :: rest) vals ops =
      match reduceBefore "/" ops vals with
      | .error e => .error e
      | .ok vo => scan mem rest vo.1 ("/" :: vo.2) := rfl

/-- The scan processes a concatenation left part first. -/
theorem scan_append (mem : SheetMemory) (xs ys : List String) :
    ∀ (vals : List JSVal) (ops : List String),
      scan mem (xs ++ ys) vals ops =
        match scan mem xs vals ops with
        | .error e => .error e
        | .ok vo => scan mem ys vo.1 vo.2 := by
  induction xs with
  | nil => intro vals ops; simp [scan]
  | cons t rest ih =>
    intro vals ops
    simp only [List.cons_append, scan]
    by_cases h1 : isNumber t
    · simp only [h1, if_true]
      exact ih _ _
    · simp only [h1, Bool.false_eq_true, if_false]
      by_cases h2 : isCellReference t
      · simp only [h2, if_true]
        by_cases h3 : (getCellValue mem t).2 ≠ ""
        · simp [h3]
        · simp only [h3, if_false]
          exact ih _ _
      · simp only [h2, Bool.false_eq_true, if_false]
        by_cases h4 : t = "("
        · simp only [h4, if_true]
          exact ih _ _
        · simp only [h4, if_false]
          by_cases h5 : t = ")"
          · simp only [h5, if_true]
            cases reduceParen ops vals with
            | error e => rfl
            | ok vo => exact ih _ _
          · simp only [h5, if_false]
            by_cases h6 : isOperator t
            · simp only [h6, if_true]
              cases reduceBefore t ops vals with
              | error e => rfl
              | ok vo => exact ih _ _
            · simp only [h6, Bool.false_eq_true, if_false]
              exact ih _ _

/-! ### Apply-operator computations on finite operands -/

theorem applyOperator_add (a b : ℚ) (rest : List JSVal) :
    applyOperator "+" (.fin b :: .fin a :: rest) = .ok (.fin (a + b) :: rest) := rfl

theorem applyOperator_sub (a b : ℚ) (rest : List JSVal) :
    applyOperator "-" (.fin b :: .fin a :: rest) = .ok (.fin (a - b) :: rest) := by
  simp [applyOperator, popOperand, JSVal.jsub, JSVal.jneg, JSVal.jadd, sub_eq_add_neg]

theorem applyOperator_mul (a b : ℚ) (rest : List JSVal) :
    applyOperator "*" (.fin b :: .fin a :: rest) = .ok (.fin (a * b) :: rest) := rfl

theorem applyOperator_div (a b : ℚ) (rest : List JSVal) (hb : b ≠ 0) :
    applyOperator "/" (.fin b :: .fin a :: rest) = .ok (.fin (a / b) :: rest) := by
  simp [applyOperator, popOperand, JSVal.jdiv, hb]

/-- `v || 0` is the identity on finite values (a falsy finite value is 0
itself). -/
theorem orZero_fin (q : ℚ) : orZero (.fin q) = .fin q := by
  by_cases h : q = 0
  · subst h
    simp [orZero, JSVal.truthy]
  · simp [orZero, JSVal.truthy, h]

end FormulaEvaluator

namespace FormulaEvaluator

/-- Lift a prec-2-loop postcondition to the prec-1 loop under a
precedence-0 barrier. -/
theorem exprA_of_term_red (ops pops : List String) (vals pv : List JSVal) (q : ℚ)
    (hred : reduceBefore "*" pops pv = .ok (JSVal.fin q :: vals, ops))
    (hb : precTop ops = 0) :
    reduceBefore "+" pops pv = .ok (JSVal.fin q :: vals, ops) := by
  rw [reduceBefore_factor, hred]
  exact reduceBefore_stop "+" ops _ (by rw [hb]; decide)


/-- Core invariant of the shunting-yard scan, by induction over the
stratified grammar.  For a factor, scanning its tokens just pushes its
value.  For a term (resp. additive expression), scanning its tokens
from a stack whose top binds less tightly than `*`/`/` (resp. `+`/`-`)
reaches a state from which the prec-2 (resp. prec-1) reduction loop
recovers exactly the pushed value and the original stacks. -/
theorem scan_grammar (e : AExp) :
    (∀ q : ℚ, AExp.isFactor e = true → AExp.denote e = some q →
      ∀ (mem : SheetMemory) (vals : List JSVal) (ops : List String), OpsOK ops →
        scan mem (AExp.tokensOf e) vals ops = .ok (JSVal.fin q :: vals, ops)) ∧
    (∀ q : ℚ, AExp.isTerm e = true → AExp.denote e = some q →
      ∀ (mem : SheetMemory) (vals : List JSVal) (ops : List String),
        OpsOK ops → precTop ops ≤ 1 →
        ∃ pv pops, scan mem (AExp.tokensOf e) vals ops = .ok (pv, pops) ∧ OpsOK pops ∧
          reduceBefore "*" pops pv = .ok (JSVal.fin q :: vals, ops)) ∧
    (∀ q : ℚ, AExp.isExprA e = true → AExp.denote e = some q →
      ∀ (mem : SheetMemory) (vals : List JSVal) (ops : List String),
        OpsOK ops → precTop ops = 0 →
        ∃ pv pops, scan mem (AExp.tokensOf e) vals ops = .ok (pv, pops) ∧ OpsOK pops ∧
          reduceBefore "+" pops pv = .ok (JSVal.fin q :: vals, ops)) := by
  induction e with
  | num s q0 =>
    have hF : ∀ q : ℚ, AExp.isFactor (AExp.num s q0) = true → AExp.denote (AExp.num s q0) = some q →
        ∀ (mem : SheetMemory) (vals : List JSVal) (ops : List String), OpsOK ops →
          scan mem (AExp.tokensOf (AExp.num s q0)) vals ops = .ok (JSVal.fin q :: vals, ops) := by
      intro q hwf hval mem vals ops _
      simp only [AExp.denote, Option.some.injEq] at hval
      subst hval
      simp only [AExp.isFactor, AExp.numOK, decide_eq_true_eq] at hwf
      rw [AExp.tokensOf, scan_numtok mem [] vals ops hwf]
      rfl
    refine ⟨hF, ?_, ?_⟩
    · intro q hwf hval mem vals ops hOK hb
      refine ⟨_, _, hF q (by simpa [AExp.isFactor, AExp.isTerm] using hwf) hval mem vals ops hOK, hOK, ?_⟩
      exact reduceBefore_stop "*" ops _ (lt_of_le_of_lt hb (by decide))
    · intro q hwf hval mem vals ops hOK hb
      refine ⟨_, _, hF q (by simpa [AExp.isFactor, AExp.isExprA] using hwf) hval mem vals ops hOK, hOK, ?_⟩
      exact reduceBefore_stop "+" ops _ (by rw [hb]; decide)
  | paren a iha =>
    have hF : ∀ q : ℚ, AExp.isFactor (AExp.paren a) = true → AExp.denote (AExp.paren a) = some q →
        ∀ (mem : SheetMemory) (vals : List JSVal) (ops : List String), OpsOK ops →
          scan mem (AExp.tokensOf (AExp.paren a)) vals ops = .ok (JSVal.fin q :: vals, ops) := by
      intro q hwf hval mem vals ops hOK
      simp only [AExp.isFactor] at hwf
      simp only [AExp.denote] at hval
      obtain ⟨pv, pops, hscan, hOK2, hred⟩ :=
        iha.2.2 q hwf hval mem vals ("(" :: ops) (OpsOK_cons (Or.inl rfl) hOK) rfl
      rw [AExp.tokensOf, scan_open, scan_append mem (AExp.tokensOf a) [")"] vals ("(" :: ops),
        hscan]
      show scan mem [")"] pv pops = Except.ok (JSVal.fin q :: vals, ops)
      rw [scan_close,
        reduceParen_of_reduceBefore pops pv (JSVal.fin q :: vals) ("(" :: ops) hOK2 hred]
      rfl
    refine ⟨hF, ?_, ?_⟩
    · intro q hwf hval mem vals ops hOK hb
      refine ⟨_, _, hF q (by simpa [AExp.isFactor, AExp.isTerm] using hwf) hval mem vals ops hOK, hOK, ?_⟩
      exact reduceBefore_stop "*" ops _ (lt_of_le_of_lt hb (by decide))
    · intro q hwf hval mem vals ops hOK hb
      refine ⟨_, _, hF q (by simpa [AExp.isFactor, AExp.isExprA] using hwf) hval mem vals ops hOK, hOK, ?_⟩
      exact reduceBefore_stop "+" ops _ (by rw [hb]; decide)
  | add a b iha ihb =>
    refine ⟨?_, ?_, ?_⟩
    · intro q hwf
      exact absurd hwf (by simp [AExp.isFactor])
    · intro q hwf
      exact absurd hwf (by simp [AExp.isTerm])
    · intro q hwf hval mem vals ops hOK hb
      simp only [AExp.isExprA, Bool.and_eq_true] at hwf
      obtain ⟨hwa, hwb⟩ := hwf
      simp only [AExp.denote] at hval
      cases ha : AExp.denote a with
      | none => rw [ha] at hval; cases AExp.denote b <;> simp at hval
      | some x =>
        cases hb2 : AExp.denote b with
        | none => rw [ha, hb2] at hval; simp at hval
        | some y =>
          rw [ha, hb2] at hval
          simp only [Option.some.injEq] at hval
          subst hval
          obtain ⟨pv1, pops1, hscan1, hOK1, hred1⟩ := iha.2.2 x hwa ha mem vals ops hOK hb
          obtain ⟨pv2, pops2, hscan2, hOK2, hred2⟩ :=
            ihb.2.1 y hwb hb2 mem (JSVal.fin x :: vals) ("+" :: ops)
              (OpsOK_cons (Or.inr (by decide)) hOK) (by simp [precTop, getOperatorPrecedence])
          refine ⟨pv2, pops2, ?_, hOK2, ?_⟩
          · rw [AExp.tokensOf, scan_append mem (AExp.tokensOf a) ("+" :: AExp.tokensOf b) vals ops,
              hscan1]
            show scan mem ("+" :: AExp.tokensOf b) pv1 pops1 = Except.ok (pv2, pops2)
            rw [scan_plus, hred1]
            show scan mem (AExp.tokensOf b) (JSVal.fin x :: vals) ("+" :: ops) =
              Except.ok (pv2, pops2)
            exact hscan2
          · rw [reduceBefore_factor, hred2]
            show reduceBefore "+" ("+" :: ops) (JSVal.fin y :: JSVal.fin x :: vals) =
              Except.ok (JSVal.fin (x + y) :: vals, ops)
            have hle : getOperatorPrecedence "+" ≤ getOperatorPrecedence "+" := le_refl _
            rw [reduceBefore, if_pos hle, applyOperator_add]
            exact reduceBefore_stop "+" ops _ (by rw [hb]; decide)
  | sub a b iha ihb =>
    refine ⟨?_, ?_, ?_⟩
    · intro q hwf
      exact absurd hwf (by simp [AExp.isFactor])
    · intro q hwf
      exact absurd hwf (by simp [AExp.isTerm])
    · intro q hwf hval mem vals ops hOK hb
      simp only [AExp.isExprA, Bool.and_eq_true] at hwf
      obtain ⟨hwa, hwb⟩ := hwf
      simp only [AExp.denote] at hval
      cases ha : AExp.denote a with
      | none => rw [ha] at hval; cases AExp.denote b <;> simp at hval
      | some x =>
        cases hb2 : AExp.denote b with
        | none => rw [ha, hb2] at hval; simp at hval
        | some y =>
          rw [ha, hb2] at hval
          simp only [Option.some.injEq] at hval
          subst hval
          obtain ⟨pv1, pops1, hscan1, hOK1, hred1⟩ := iha.2.2 x hwa ha mem vals ops hOK hb
          obtain ⟨pv2, pops2, hscan2, hOK2, hred2⟩ :=
            ihb.2.1 y hwb hb2 mem (JSVal.fin x :: vals) ("-" :: ops)
              (OpsOK_cons (Or.inr (by decide)) hOK) (by simp [precTop, getOperatorPrecedence])
          refine ⟨pv2, pops2, ?_, hOK2, ?_⟩
          · rw [AExp.tokensOf, scan_append mem (AExp.tokensOf a) ("-" :: AExp.tokensOf b) vals ops,
              hscan1]
            show scan mem ("-" :: AExp.tokensOf b) pv1 pops1 = Except.ok (pv2, pops2)
            rw [scan_minus, reduceBefore_congr "-" "+" (by decide) pops1 pv1, hred1]
            show scan mem (AExp.tokensOf b) (JSVal.fin x :: vals) ("-" :: ops) =
              Except.ok (pv2, pops2)
            exact hscan2
          · rw [reduceBefore_factor, hred2]
            show reduceBefore "+" ("-" :: ops) (JSVal.fin y :: JSVal.fin x :: vals) =
              Except.ok (JSVal.fin (x - y) :: vals, ops)
            have hle : getOperatorPrecedence "+" ≤ getOperatorPrecedence "-" := by decide
            rw [reduceBefore, if_pos hle, applyOperator_sub]
            exact reduceBefore_stop "+" ops _ (by rw [hb]; decide)
  | mul a b iha ihb =>
    have hT : ∀ q : ℚ, AExp.isTerm (AExp.mul a b) = true → AExp.denote (AExp.mul a b) = some q →
        ∀ (mem : SheetMemory) (vals : List JSVal) (ops : List String),
          OpsOK ops → precTop ops ≤ 1 →
          ∃ pv pops, scan mem (AExp.tokensOf (AExp.mul a b)) vals ops = .ok (pv, pops) ∧
            OpsOK pops ∧ reduceBefore "*" pops pv = .ok (JSVal.fin q :: vals, ops) := by
      intro q hwf hval mem vals ops hOK hb
      simp only [AExp.isTerm, Bool.and_eq_true] at hwf
      obtain ⟨hwa, hwb⟩ := hwf
      simp only [AExp.denote] at hval
      cases ha : AExp.denote a with
      | none => rw [ha] at hval; cases AExp.denote b <;> simp at hval
      | some x =>
        cases hb2 : AExp.denote b with
        | none => rw [ha, hb2] at hval; simp at hval
        | some y =>
          rw [ha, hb2] at hval
          simp only [Option.some.injEq] at hval
          subst hval
          obtain ⟨pv1, pops1, hscan1, hOK1, hred1⟩ := iha.2.1 x hwa ha mem vals ops hOK hb
          have hscanb :=
            ihb.1 y hwb hb2 mem (JSVal.fin x :: vals) ("*" :: ops)
              (OpsOK_cons (Or.inr (by decide)) hOK)
          refine ⟨JSVal.fin y :: JSVal.fin x :: vals, "*" :: ops, ?_,
            OpsOK_cons (Or.inr (by decide)) hOK, ?_⟩
          · rw [AExp.tokensOf, scan_append mem (AExp.tokensOf a) ("*" :: AExp.tokensOf b) vals ops,
              hscan1]
            show scan mem ("*" :: AExp.tokensOf b) pv1 pops1 =
              Except.ok (JSVal.fin y :: JSVal.fin x :: vals, "*" :: ops)
            rw [scan_star, hred1]
            show scan mem (AExp.tokensOf b) (JSVal.fin x :: vals) ("*" :: ops) =
              Except.ok (JSVal.fin y :: JSVal.fin x :: vals, "*" :: ops)
            exact hscanb
          · have hle : getOperatorPrecedence "*" ≤ getOperatorPrecedence "*" := le_refl _
            rw [reduceBefore, if_pos hle, applyOperator_mul]
            exact reduceBefore_stop "*" ops _ (lt_of_le_of_lt hb (by decide))
    refine ⟨?_, hT, ?_⟩
    · intro q hwf
      exact absurd hwf (by simp [AExp.isFactor])
    · intro q hwf hval mem vals ops hOK hb
      obtain ⟨pv, pops, h1, h2, h3⟩ :=
        hT q (by simpa [AExp.isExprA, AExp.isTerm] using hwf) hval mem vals ops hOK
          (by rw [hb]; decide)
      exact ⟨pv, pops, h1, h2, exprA_of_term_red ops pops vals pv q h3 hb⟩
  | div a b iha ihb =>
    have hT : ∀ q : ℚ, AExp.isTerm (AExp.div a b) = true → AExp.denote (AExp.div a b) = some q →
        ∀ (mem : SheetMemory) (vals : List JSVal) (ops : List String),
          OpsOK ops → precTop ops ≤ 1 →
          ∃ pv pops, scan mem (AExp.tokensOf (AExp.div a b)) vals ops = .ok (pv, pops) ∧
            OpsOK pops ∧ reduceBefore "*" pops pv = .ok (JSVal.fin q :: vals, ops) := by
      intro q hwf hval mem vals ops hOK hb
      simp only [AExp.isTerm, Bool.and_eq_true] at hwf
      obtain ⟨hwa, hwb⟩ := hwf
      simp only [AExp.denote] at hval
      cases ha : AExp.denote a with
      | none => rw [ha] at hval; cases AExp.denote b <;> simp at hval
      | some x =>
        cases hb2 : AExp.denote b with
        | none => rw [ha, hb2] at hval; simp at hval
        | some y =>
          rw [ha, hb2] at hval
          by_cases hy : y = 0
          · simp [hy] at hval
          · simp only [hy, if_false, Option.some.injEq] at hval
            subst hval
            obtain ⟨pv1, pops1, hscan1, hOK1, hred1⟩ := iha.2.1 x hwa ha mem vals ops hOK hb
            have hscanb :=
              ihb.1 y hwb hb2 mem (JSVal.fin x :: vals) ("/" :: ops)
                (OpsOK_cons (Or.inr (by decide)) hOK)
            refine ⟨JSVal.fin y :: JSVal.fin x :: vals, "/" :: ops, ?_,
              OpsOK_cons (Or.inr (by decide)) hOK, ?_⟩
            · rw [AExp.tokensOf,
                scan_append mem (AExp.tokensOf a) ("/" :: AExp.tokensOf b) vals ops, hscan1]
              show scan mem ("/" :: AExp.tokensOf b) pv1 pops1 =
                Except.ok (JSVal.fin y :: JSVal.fin x :: vals, "/" :: ops)
              rw [scan_slash, reduceBefore_congr "/" "*" (by decide) pops1 pv1, hred1]
              show scan mem (AExp.tokensOf b) (JSVal.fin x :: vals) ("/" :: ops) =
                Except.ok (JSVal.fin y :: JSVal.fin x :: vals, "/" :: ops)
              exact hscanb
            · have hle : getOperatorPrecedence "*" ≤ getOperatorPrecedence "/" := by decide
              rw [reduceBefore, if_pos hle, applyOperator_div x y vals hy]
              exact reduceBefore_stop "*" ops _ (lt_of_le_of_lt hb (by decide))
    refine ⟨?_, hT, ?_⟩
    · intro q hwf
      exact absurd hwf (by simp [AExp.isFactor])
    · intro q hwf hval mem vals ops hOK hb
      obtain ⟨pv, pops, h1, h2, h3⟩ :=
        hT q (by simpa [AExp.isExprA, AExp.isTerm] using hwf) hval mem vals ops hOK
          (by rw [hb]; decide)
      exact ⟨pv, pops, h1, h2, exprA_of_term_red ops pops vals pv q h3 hb⟩

end FormulaEvaluator

namespace FormulaEvaluator

theorem tokensOf_ne_nil (e : AExp) : AExp.tokensOf e ≠ [] := by
  cases e <;> simp [AExp.tokensOf]

/-- C1: for every well-formed arithmetic-only token sequence — the
rendering of a tree of the stratified infix grammar whose leaves are
finite number literals — whose standard infix value is defined (no
division by zero occurs), `evaluate` records no error and the result is
exactly that standard infix value: `*`/`/` bind tighter than `+`/`-`,
equal precedences associate left, and parentheses override precedence. -/
theorem claim_C1_standard_infix (e : AExp) (q : ℚ)
    (hwf : AExp.isExprA e = true) (hval : AExp.denote e = some q)
    (s : EvalState) (mem : SheetMemory) :
    evaluate s mem (AExp.tokensOf e) = ⟨"", JSVal.fin q⟩ := by
  obtain ⟨pv, pops, hscan, hOK2, hred⟩ :=
    (scan_grammar e).2.2 q hwf hval mem [] [] OpsOK_nil rfl
  have hall : reduceAllOps pops pv = .ok [JSVal.fin q] :=
    reduceAllOps_of_reduceBefore pops pv [JSVal.fin q] hred
  have hexpr : evaluateExpression mem (AExp.tokensOf e) = .ok (JSVal.fin q) := by
    rw [evaluateExpression, hscan]
    show (match reduceAllOps pops pv with
      | Except.error err => Except.error err
      | Except.ok values =>
        if values.length ≠ 1 then Except.error ErrorMessages.invalidFormula
        else Except.ok (orZero (popOperand values).1)) = Except.ok (JSVal.fin q)
    rw [hall]
    show Except.ok (orZero (JSVal.fin q)) = .ok (JSVal.fin q)
    rw [orZero_fin]
  have hlen : (AExp.tokensOf e).length ≠ 0 := by
    simpa [List.length_eq_zero] using tokensOf_ne_nil e
  rw [evaluate, if_neg hlen, hexpr]

theorem claim_C1_witness :
    evaluate initState memEmpty ["2", "+", "3", "*", "4"] = ⟨"", JSVal.fin 14⟩ ∧
    evaluate initState memEmpty ["(", "2", "+", "3", ")", "*", "4"] = ⟨"", JSVal.fin 20⟩ ∧
    evaluate initState memEmpty ["8", "-", "3", "-", "2"] = ⟨"", JSVal.fin 3⟩ := by
  refine ⟨?_, ?_, ?_⟩
  · exact claim_C1_standard_infix
      (AExp.add (AExp.num "2" 2) (AExp.mul (AExp.num "3" 3) (AExp.num "4" 4))) 14
      (by decide) (by decide) initState memEmpty
  · exact claim_C1_standard_infix
      (AExp.mul (AExp.paren (AExp.add (AExp.num "2" 2) (AExp.num "3" 3))) (AExp.num "4" 4)) 20
      (by decide) (by decide) initState memEmpty
  · exact claim_C1_standard_infix
      (AExp.sub (AExp.sub (AExp.num "8" 8) (AExp.num "3" 3)) (AExp.num "2" 2)) 3
      (by decide) (by decide) initState memEmpty

end FormulaEvaluator
